import Mathlib

/-!
Verification of the inference layer of `multivec` (monolingual word-embedding
model): `MonolingualModel::similarity`, `distance`, `similarityNgrams` and
`normalizeWeights` from `src/multivec/distance.cpp`, together with the
`HuffmanNode` structure from `src/multivec/multivec-mono.hpp`.

Modelling conventions:
* C++ `float` arithmetic is idealised: weight matrices hold exact rationals
  (`ℚ`), and the cosine similarity value (which divides by Euclidean norms,
  hence square roots) lives in `ℝ`.
* C++ exceptions (`runtime_error`) become an explicit error type `SimErr`
  threaded through `Except`.
* An out-of-bounds `std::vector` access (undefined behavior in the source)
  is modelled as the result `none` of an `Option`-valued computation.
-/

/-- Error kinds surfaced by the inference APIs (spec §7): the C++ code throws
`runtime_error`; the distinct kinds are told apart here. -/
inductive SimErr where
  | notInVocabulary (word : String)
  | allOOV
  | lengthMismatch
  | invalidConfig
  deriving DecidableEq

/-- Configuration record, mirroring `struct Config` in multivec-mono.hpp
(floats as `ℚ`, ints as `Int`, bools as `Bool`). -/
structure Config where
  starting_alpha : ℚ
  dimension : Int
  min_count : Int
  max_iterations : Int
  window_size : Int
  n_threads : Int
  subsampling : ℚ
  verbose : Bool
  hierarchical_softmax : Bool
  skip_gram : Bool
  negative : Int
  sent_vector : Bool
  freeze : Bool
  deriving DecidableEq

/-- Default configuration values from the `Config()` constructor in
multivec-mono.hpp. -/
def defaultConfig : Config :=
  { starting_alpha := 1/20
    dimension := 100
    min_count := 5
    max_iterations := 5
    window_size := 5
    n_threads := 4
    subsampling := 1/1000
    verbose := false
    hierarchical_softmax := false
    skip_gram := false
    negative := 5
    sent_vector := false
    freeze := false }

/-- A vector of weights (C++ `typedef vector<float> vec`). -/
abbrev vec := List ℚ

/-- A weight matrix (C++ `typedef vector<vec> mat`). -/
abbrev mat := List vec

/-- The serialized state of `class MonolingualModel` (multivec-mono.hpp): the
four weight matrices, the vocabulary (each word mapped to its dense index),
and the configuration. -/
structure MonolingualModel where
  input_weights : mat
  output_weights : mat
  output_weights_hs : mat
  sent_weights : mat
  vocabulary : List (String × Nat)
  config : Config
  deriving DecidableEq

/-- Vocabulary lookup: word to dense index (the C++ `map<string, HuffmanNode>`
lookup, keeping only the index, which is all inference uses). -/
def lookupVocab (v : List (String × Nat)) (w : String) : Option Nat :=
  (v.find? (fun p => p.1 = w)).map (fun p => p.2)

/-- Dot product of two weight vectors (`v1.dot(v2)`). -/
def dot (v1 v2 : vec) : ℚ :=
  (List.zipWith (fun a b => a * b) v1 v2).sum

/-- Euclidean norm of a weight vector (`v.norm()`). -/
noncomputable def normVec (v : vec) : ℝ :=
  Real.sqrt ((dot v v : ℚ) : ℝ)

/-- Modelled from the spec: the body of `MonolingualModel::wordVec(word,
policy)` is not among the provided sources (only its declaration in
multivec-mono.hpp). Spec §4.7: policy 0 returns `W_in[i]`; policy 1 is only
valid with negative sampling and returns `W_out_ns[i]`, otherwise it fails
with `InvalidConfig`; policy 2 returns the average of the two; policy 3 their
concatenation; an unknown word fails with `NotInVocabulary`. -/
def wordVec (m : MonolingualModel) (word : String) (policy : Nat) :
    Except SimErr vec :=
  match lookupVocab m.vocabulary word with
  | none => .error (.notInVocabulary word)
  | some i =>
    if policy = 1 then
      if m.config.negative > 0 then .ok (m.output_weights.getD i [])
      else .error .invalidConfig
    else if policy = 2 then
      .ok (List.zipWith (fun a b => (a + b) / 2)
            (m.input_weights.getD i []) (m.output_weights.getD i []))
    else if policy = 3 then
      .ok (m.input_weights.getD i [] ++ m.output_weights.getD i [])
    else
      .ok (m.input_weights.getD i [])

/-- `MonolingualModel::similarity` (distance.cpp lines 7-15): if the two words
are equal return `1.0` (before any vocabulary lookup); otherwise look both up
and return the cosine `v1.dot(v2) / (v1.norm() * v2.norm())`. -/
noncomputable def similarity (m : MonolingualModel) (word1 word2 : String)
    (policy : Nat) : Except SimErr ℝ :=
  if word1 = word2 then
    .ok 1
  else
    match wordVec m word1 policy with
    | .error e => .error e
    | .ok v1 =>
      match wordVec m word2 policy with
      | .error e => .error e
      | .ok v2 => .ok (((dot v1 v2 : ℚ) : ℝ) / (normVec v1 * normVec v2))

/-- `MonolingualModel::distance` (distance.cpp lines 17-19):
`1 - similarity(word1, word2, policy)`, propagating any exception. -/
noncomputable def distance (m : MonolingualModel) (word1 word2 : String)
    (policy : Nat) : Except SimErr ℝ :=
  match similarity m word1 word2 policy with
  | .error e => .error e
  | .ok s => .ok (1 - s)

/-- Modelled from the spec: the body of the free function `split` is not among
the provided sources (only its declaration in multivec-mono.hpp). Spec §2:
whitespace splitter producing the maximal non-whitespace runs of a line.
Helper on character lists; `cur` holds the current token, reversed. -/
def splitAuxW : List Char → List Char → List String
  | [], [] => []
  | [], cur => [String.mk cur.reverse]
  | c :: cs, cur =>
    if c.isWhitespace then
      match cur with
      | [] => splitAuxW cs []
      | _ :: _ => String.mk cur.reverse :: splitAuxW cs []
    else
      splitAuxW cs (c :: cur)

/-- Modelled from the spec: whitespace tokenizer (see `splitAuxW`). -/
def split (sentence : String) : List String :=
  splitAuxW sentence.toList []

/-- The per-position loop of `MonolingualModel::similarityNgrams`
(distance.cpp lines 29-37): `for i in 0..words1.size()`, add
`similarity(words1[i], words2[i])` to `res` and bump `n`, skipping positions
where `similarity` throws. The access `words2[i]` is unchecked in the source:
when `words1` is longer than `words2` the loop reads past the end of
`words2`, modelled as `none`. -/
noncomputable def ngramsLoop (m : MonolingualModel) (policy : Nat) :
    List String → List String → ℝ → Nat → Option (ℝ × Nat)
  | [], _, res, n => some (res, n)
  | _ :: _, [], _, _ => none
  | w1 :: ws1, w2 :: ws2, res, n =>
    match similarity m w1 w2 policy with
    | .ok s => ngramsLoop m policy ws1 ws2 (res + s) (n + 1)
    | .error _ => ngramsLoop m policy ws1 ws2 res n

/-- `MonolingualModel::similarityNgrams` (distance.cpp lines 21-44), faithful
to the source, including the self-comparison bug in the length guard: the
source tests `words2.size() != words2.size()` (not `words1.size()`), so the
`LengthMismatch` branch never fires. `none` marks the undefined behavior of
an out-of-bounds read in the loop. -/
noncomputable def similarityNgrams (m : MonolingualModel) (seq1 seq2 : String)
    (policy : Nat) : Option (Except SimErr ℝ) :=
  let words1 := split seq1
  let words2 := split seq2
  if words2.length ≠ words2.length then
    some (.error .lengthMismatch)
  else
    match ngramsLoop m policy words1 words2 0 0 with
    | none => none
    | some (res, n) =>
      if n = 0 then some (.error .allOOV)
      else some (.ok (res / (n : ℝ)))

/-- The free function `normalizeWeights(mat&)` (distance.cpp lines 46-69):
per-column min-max normalization. `min_values` / `max_values` start as row 0
and are folded over the remaining rows; each entry `x` of column `j` becomes
`(x - min_j) / (max_j - min_j)` unless `max_j == min_j`, in which case it is
left unchanged. An empty matrix is returned as is. -/
def normalizeWeights (weights : mat) : mat :=
  match weights with
  | [] => weights
  | w0 :: rest =>
    let min_values := rest.foldl (fun acc row => List.zipWith min acc row) w0
    let max_values := rest.foldl (fun acc row => List.zipWith max acc row) w0
    (w0 :: rest).map (fun row =>
      List.zipWith
        (fun x p => if p.2 ≠ p.1 then (x - p.1) / (p.2 - p.1) else x)
        row (min_values.zip max_values))

/-- `MonolingualModel::normalizeWeights` (distance.cpp lines 71-76): applies
the free `normalizeWeights` to each of the four matrices. Named
`normalizeWeightsModel` here because Lean would otherwise resolve the
recursive occurrence of the name to the method itself. -/
def normalizeWeightsModel (m : MonolingualModel) :
    MonolingualModel :=
  { m with
    input_weights := normalizeWeights m.input_weights
    output_weights := normalizeWeights m.output_weights
    output_weights_hs := normalizeWeights m.output_weights_hs
    sent_weights := normalizeWeights m.sent_weights }

/-- The Huffman tree (`struct HuffmanNode` in multivec-mono.hpp), stored with
its explicit `count` field, as the C++ struct stores it: a leaf carries the
index, word and corpus count; an internal node carries an index, two children
and a stored count. -/
inductive HuffmanNode where
  | leaf (index : Int) (word : String) (count : Int)
  | node (index : Int) (left : HuffmanNode) (right : HuffmanNode) (count : Int)
  deriving DecidableEq

/-- The stored `count` field of a node. -/
def HuffmanNode.count : HuffmanNode → Int
  | .leaf _ _ c => c
  | .node _ _ _ c => c

/-- The internal-node constructor `HuffmanNode(int index, HuffmanNode* left,
HuffmanNode* right)` (multivec-mono.hpp lines 65-67): the stored count is
`left->count + right->count`. -/
def HuffmanNode.mkInternal (index : Int) (l r : HuffmanNode) : HuffmanNode :=
  .node index l r (l.count + r.count)

/-- Whether a node is a leaf (`is_leaf` in the C++ struct). -/
def HuffmanNode.isLeaf : HuffmanNode → Bool
  | .leaf _ _ _ => true
  | .node _ _ _ _ => false

/-- Sum of the counts of the leaves of a subtree. -/
def HuffmanNode.leafSum : HuffmanNode → Int
  | .leaf _ _ c => c
  | .node _ l r _ => l.leafSum + r.leafSum

/-- Local well-formedness: each internal node's stored count equals the sum
of its children's stored counts (what the constructor establishes). -/
def HuffmanNode.countsOk : HuffmanNode → Bool
  | .leaf _ _ _ => true
  | .node _ l r c => decide (c = l.count + r.count) && l.countsOk && r.countsOk

/-- Global well-formedness: each internal node's stored count equals the sum
of the counts of the leaves of its subtree. -/
def HuffmanNode.subtreeSums : HuffmanNode → Bool
  | .leaf _ _ _ => true
  | .node _ l r c => decide (c = l.leafSum + r.leafSum) && l.subtreeSums && r.subtreeSums

/-- Modelled from the spec: `MonolingualModel::createBinaryTree`'s body is
not among the provided sources (only its declaration in multivec-mono.hpp).
Spec §4.2: repeatedly select the two current minima by count and merge them
into a new internal node — built with the source's internal-node constructor
`HuffmanNode.mkInternal` — until one tree remains. `nextIndex` numbers the
internal nodes in construction order. -/
def buildHuffman (l : List HuffmanNode) (nextIndex : Int) : List HuffmanNode :=
  match h : l.mergeSort (fun a b => decide (a.count ≤ b.count)) with
  | [] => l
  | [_] => l
  | a :: b :: rest =>
    buildHuffman (HuffmanNode.mkInternal nextIndex a b :: rest) (nextIndex + 1)
termination_by l.length
decreasing_by
  have hl : l.length = (a :: b :: rest).length := by
    rw [← h, List.length_mergeSort]
  simp only [List.length_cons] at hl ⊢
  omega

/-- State-passing form of `wordVec`: a `const` method returning the model it
was called on unchanged alongside its result. -/
def wordVecSt (m : MonolingualModel) (word : String) (policy : Nat) :
    Except SimErr vec × MonolingualModel :=
  (wordVec m word policy, m)

/-- State-passing form of `MonolingualModel::similarity`, threading the model
through the two `wordVec` calls exactly as the source method body does. -/
noncomputable def similaritySt (m : MonolingualModel) (word1 word2 : String)
    (policy : Nat) : Except SimErr ℝ × MonolingualModel :=
  if word1 = word2 then
    (.ok 1, m)
  else
    match wordVecSt m word1 policy with
    | (.error e, m1) => (.error e, m1)
    | (.ok v1, m1) =>
      match wordVecSt m1 word2 policy with
      | (.error e, m2) => (.error e, m2)
      | (.ok v2, m2) =>
        (.ok (((dot v1 v2 : ℚ) : ℝ) / (normVec v1 * normVec v2)), m2)

/-- State-passing form of `MonolingualModel::distance`. -/
noncomputable def distanceSt (m : MonolingualModel) (word1 word2 : String)
    (policy : Nat) : Except SimErr ℝ × MonolingualModel :=
  match similaritySt m word1 word2 policy with
  | (.error e, m1) => (.error e, m1)
  | (.ok s, m1) => (.ok (1 - s), m1)

/-- State-passing form of the `similarityNgrams` loop, threading the model
through each `similarity` call. -/
noncomputable def ngramsLoopSt (policy : Nat) :
    MonolingualModel → List String → List String → ℝ → Nat →
      Option (ℝ × Nat) × MonolingualModel
  | m, [], _, res, n => (some (res, n), m)
  | m, _ :: _, [], _, _ => (none, m)
  | m, w1 :: ws1, w2 :: ws2, res, n =>
    match similaritySt m w1 w2 policy with
    | (.ok s, m1) => ngramsLoopSt policy m1 ws1 ws2 (res + s) (n + 1)
    | (.error _, m1) => ngramsLoopSt policy m1 ws1 ws2 res n

/-- State-passing form of `MonolingualModel::similarityNgrams`. -/
noncomputable def similarityNgramsSt (m : MonolingualModel)
    (seq1 seq2 : String) (policy : Nat) :
    Option (Except SimErr ℝ) × MonolingualModel :=
  let words1 := split seq1
  let words2 := split seq2
  if words2.length ≠ words2.length then
    (some (.error .lengthMismatch), m)
  else
    match ngramsLoopSt policy m words1 words2 0 0 with
    | (none, m1) => (none, m1)
    | (some (res, n), m1) =>
      if n = 0 then (some (.error .allOOV), m1)
      else (some (.ok (res / (n : ℝ))), m1)

/-- The per-position average that the spec describes for `similarityNgrams`
(spec §4.7, restated by the claim): zip the two token lists, keep the
positions where `similarity` succeeds, fail with `AllOOV` if none did, and
otherwise return the arithmetic mean of the kept values. -/
noncomputable def ngramsSpec (m : MonolingualModel) (seq1 seq2 : String)
    (policy : Nat) : Except SimErr ℝ :=
  let sims := ((split seq1).zip (split seq2)).filterMap
    (fun p => (similarity m p.1 p.2 policy).toOption)
  if sims.length = 0 then .error .allOOV
  else .ok (sims.sum / (sims.length : ℝ))

/-- Entry `weights[i][j]` of a matrix (0 outside the bounds). -/
def entry (w : mat) (i j : Nat) : ℚ :=
  (w.getD i []).getD j 0

/-- The values of column `j` of a matrix, row by row. -/
def colVals (w : mat) (j : Nat) : List ℚ :=
  w.map (fun row => row.getD j 0)

/-- The minimum of column `j` (the value `min_values[j]` computed by
`normalizeWeights`); 0 for an empty matrix. -/
def colMin (w : mat) (j : Nat) : ℚ :=
  match w with
  | [] => 0
  | r :: rs => (rs.map (fun row => row.getD j 0)).foldl min (r.getD j 0)

/-- The maximum of column `j` (the value `max_values[j]` computed by
`normalizeWeights`); 0 for an empty matrix. -/
def colMax (w : mat) (j : Nat) : ℚ :=
  match w with
  | [] => 0
  | r :: rs => (rs.map (fun row => row.getD j 0)).foldl max (r.getD j 0)

/-- All rows of the matrix have length `d`. -/
def uniform (w : mat) (d : Nat) : Prop :=
  ∀ row ∈ w, row.length = d

instance (w : mat) (d : Nat) : Decidable (uniform w d) :=
  inferInstanceAs (Decidable (∀ row ∈ w, row.length = d))

/-! ### Generic list helpers -/

theorem getD_zipWith {α β γ : Type} (f : α → β → γ) (d1 : α) (d2 : β) (dz : γ) :
    ∀ (l1 : List α) (l2 : List β) (j : Nat), j < l1.length → j < l2.length →
      (List.zipWith f l1 l2).getD j dz = f (l1.getD j d1) (l2.getD j d2) := by
  intro l1
  induction l1 with
  | nil => intro l2 j h1 _; simp at h1
  | cons a as ih =>
    intro l2 j h1 h2
    cases l2 with
    | nil => simp at h2
    | cons b bs =>
      cases j with
      | zero => simp [List.getD]
      | succ j =>
        simp only [List.zipWith_cons_cons, List.getD_cons_succ]
        exact ih bs j (by simpa using h1) (by simpa using h2)

theorem getD_map_mat (g : vec → vec) (w : mat) (i : Nat) (h : i < w.length) :
    (w.map g).getD i [] = g (w.getD i []) := by
  simp [List.getD_eq_getElem?_getD, List.getElem?_eq_getElem h,
    List.getElem?_eq_getElem (by simpa using h : i < (w.map g).length)]

theorem getD_mem (w : mat) (i : Nat) (h : i < w.length) : w.getD i [] ∈ w := by
  rw [List.getD_eq_getElem?_getD, List.getElem?_eq_getElem h]
  exact List.getElem_mem h

theorem foldl_min_le_init (l : List ℚ) : ∀ a : ℚ, l.foldl min a ≤ a := by
  induction l with
  | nil => intro a; simp
  | cons x xs ih =>
    intro a
    exact le_trans (ih (min a x)) (min_le_left a x)

theorem foldl_min_le_mem (l : List ℚ) : ∀ (a x : ℚ), x ∈ l → l.foldl min a ≤ x := by
  induction l with
  | nil => intro a x hx; simp at hx
  | cons y ys ih =>
    intro a x hx
    rcases List.mem_cons.1 hx with h | h
    · subst h
      exact le_trans (foldl_min_le_init ys (min a x)) (min_le_right a x)
    · exact ih (min a y) x h

theorem foldl_min_eq_init_or_mem (l : List ℚ) :
    ∀ a : ℚ, l.foldl min a = a ∨ l.foldl min a ∈ l := by
  induction l with
  | nil => intro a; left; rfl
  | cons x xs ih =>
    intro a
    rcases ih (min a x) with h | h
    · rcases min_cases a x with ⟨h1, _⟩ | ⟨h1, _⟩
      · left; simp only [List.foldl_cons]; rw [h, h1]
      · right; simp only [List.foldl_cons]; rw [h, h1]; exact List.mem_cons_self x xs
    · right; exact List.mem_cons_of_mem x h

theorem le_foldl_max_init (l : List ℚ) : ∀ a : ℚ, a ≤ l.foldl max a := by
  induction l with
  | nil => intro a; simp
  | cons x xs ih =>
    intro a
    exact le_trans (le_max_left a x) (ih (max a x))

theorem mem_le_foldl_max (l : List ℚ) : ∀ (a x : ℚ), x ∈ l → x ≤ l.foldl max a := by
  induction l with
  | nil => intro a x hx; simp at hx
  | cons y ys ih =>
    intro a x hx
    rcases List.mem_cons.1 hx with h | h
    · subst h
      exact le_trans (le_max_right a x) (le_foldl_max_init ys (max a x))
    · exact ih (max a y) x h

theorem foldl_max_eq_init_or_mem (l : List ℚ) :
    ∀ a : ℚ, l.foldl max a = a ∨ l.foldl max a ∈ l := by
  induction l with
  | nil => intro a; left; rfl
  | cons x xs ih =>
    intro a
    rcases ih (max a x) with h | h
    · rcases max_cases a x with ⟨h1, _⟩ | ⟨h1, _⟩
      · left; simp only [List.foldl_cons]; rw [h, h1]
      · right; simp only [List.foldl_cons]; rw [h, h1]; exact List.mem_cons_self x xs
    · right; exact List.mem_cons_of_mem x h

/-! ### Dot-product lemmas -/

theorem dot_nil_left (v : vec) : dot [] v = 0 := rfl

theorem dot_nil_right (v : vec) : dot v [] = 0 := by
  cases v <;> rfl

theorem dot_cons (a b : ℚ) (v1 v2 : vec) :
    dot (a :: v1) (b :: v2) = a * b + dot v1 v2 := by
  simp [dot]

theorem dot_comm (v1 v2 : vec) : dot v1 v2 = dot v2 v1 := by
  unfold dot
  rw [List.zipWith_comm_of_comm (fun a b => a * b) mul_comm]

theorem dot_self_nonneg (v : vec) : 0 ≤ dot v v := by
  induction v with
  | nil => simp [dot_nil_left]
  | cons a as ih =>
    rw [dot_cons]
    exact add_nonneg (mul_self_nonneg a) ih

/-- Cauchy-Schwarz for the truncating list dot product. -/
theorem dot_sq_le (v1 : vec) : ∀ v2 : vec, (dot v1 v2) ^ 2 ≤ dot v1 v1 * dot v2 v2 := by
  induction v1 with
  | nil =>
    intro v2
    simp [dot_nil_left]
  | cons a as ih =>
    intro v2
    cases v2 with
    | nil =>
      simp [dot_nil_right]
    | cons b bs =>
      rw [dot_cons, dot_cons, dot_cons]
      have hd := ih bs
      have hA := dot_self_nonneg as
      have hB := dot_self_nonneg bs
      rcases eq_or_lt_of_le hB with hB0 | hBpos
      · have hd0 : dot as bs = 0 := by nlinarith [sq_nonneg (dot as bs)]
        rw [← hB0, hd0]
        nlinarith [mul_nonneg hA (mul_self_nonneg b)]
      · nlinarith [sq_nonneg (a * dot bs bs - b * dot as bs),
          mul_nonneg (add_nonneg (mul_self_nonneg b) hB)
            (sub_nonneg.2 hd), hBpos]

/-- The absolute value of the (truncating) dot product is bounded by the
product of the norms. -/
theorem abs_dot_le_norm_mul_norm (v1 v2 : vec) :
    |((dot v1 v2 : ℚ) : ℝ)| ≤ normVec v1 * normVec v2 := by
  have hA : (0 : ℝ) ≤ ((dot v1 v1 : ℚ) : ℝ) := by
    exact_mod_cast dot_self_nonneg v1
  have hB : (0 : ℝ) ≤ ((dot v2 v2 : ℚ) : ℝ) := by
    exact_mod_cast dot_self_nonneg v2
  have hd : ((dot v1 v2 : ℚ) : ℝ) ^ 2 ≤
      ((dot v1 v1 : ℚ) : ℝ) * ((dot v2 v2 : ℚ) : ℝ) := by
    exact_mod_cast dot_sq_le v1 v2
  have h1 : |((dot v1 v2 : ℚ) : ℝ)| =
      Real.sqrt (((dot v1 v2 : ℚ) : ℝ) ^ 2) := by
    rw [Real.sqrt_sq_eq_abs]
  rw [h1]
  unfold normVec
  rw [← Real.sqrt_mul hA]
  exact Real.sqrt_le_sqrt hd

/-- The cosine value computed by `similarity` lies in `[-1, 1]` (division by
a zero norm yields 0, which also lies in the interval). -/
theorem abs_cosine_le_one (v1 v2 : vec) :
    |((dot v1 v2 : ℚ) : ℝ) / (normVec v1 * normVec v2)| ≤ 1 := by
  have hn : 0 ≤ normVec v1 * normVec v2 :=
    mul_nonneg (Real.sqrt_nonneg _) (Real.sqrt_nonneg _)
  rcases eq_or_lt_of_le hn with h0 | hpos
  · have hd0 : ((dot v1 v2 : ℚ) : ℝ) = 0 := by
      have := abs_dot_le_norm_mul_norm v1 v2
      rw [← h0] at this
      exact abs_eq_zero.1 (le_antisymm this (abs_nonneg _))
    simp [hd0]
  · rw [abs_div, abs_of_pos hpos, div_le_one hpos]
    exact abs_dot_le_norm_mul_norm v1 v2

/-! ### Matrix-column lemmas for `normalizeWeights` -/

theorem getD_row_eq_getElem (w : mat) (i : Nat) (h : i < w.length) :
    w.getD i [] = w[i] := by
  simp [List.getD_eq_getElem?_getD, List.getElem?_eq_getElem h]

theorem getD_row_out (w : mat) (i : Nat) (h : ¬ i < w.length) :
    w.getD i [] = [] := by
  simp [List.getD_eq_getElem?_getD, List.getElem?_eq_none (Nat.le_of_not_lt h)]

theorem getD_val_eq_getElem (v : vec) (j : Nat) (h : j < v.length) :
    v.getD j 0 = v[j] := by
  simp [List.getD_eq_getElem?_getD, List.getElem?_eq_getElem h]

theorem foldl_zipWith_length (f : ℚ → ℚ → ℚ) :
    ∀ (rest : mat) (acc : vec), (∀ r ∈ rest, r.length = acc.length) →
      (rest.foldl (fun a row => List.zipWith f a row) acc).length = acc.length := by
  intro rest
  induction rest with
  | nil => intro acc _; rfl
  | cons r rs ih =>
    intro acc h
    have hr : r.length = acc.length := h r (List.mem_cons_self r rs)
    have hz : (List.zipWith f acc r).length = acc.length := by
      simp [List.length_zipWith, hr]
    simp only [List.foldl_cons]
    rw [ih (List.zipWith f acc r)
      (fun r' hr' => by rw [hz]; exact h r' (List.mem_cons_of_mem r hr')), hz]

theorem foldl_zipWith_getD (f : ℚ → ℚ → ℚ) :
    ∀ (rest : mat) (acc : vec) (j : Nat),
      (∀ r ∈ rest, r.length = acc.length) → j < acc.length →
      (rest.foldl (fun a row => List.zipWith f a row) acc).getD j 0 =
        (rest.map (fun row => row.getD j 0)).foldl f (acc.getD j 0) := by
  intro rest
  induction rest with
  | nil => intro acc j _ _; rfl
  | cons r rs ih =>
    intro acc j h hj
    have hr : r.length = acc.length := h r (List.mem_cons_self r rs)
    have hz : (List.zipWith f acc r).length = acc.length := by
      simp [List.length_zipWith, hr]
    simp only [List.foldl_cons, List.map_cons]
    rw [ih (List.zipWith f acc r) j
      (fun r' hr' => by rw [hz]; exact h r' (List.mem_cons_of_mem r hr'))
      (by rw [hz]; exact hj)]
    rw [getD_zipWith f 0 0 0 acc r j hj (by rw [hr]; exact hj)]

theorem colVals_length (w : mat) (j : Nat) : (colVals w j).length = w.length := by
  simp [colVals]

theorem colVals_getElem (w : mat) (j i : Nat) (h : i < w.length) :
    (colVals w j).get ⟨i, by rw [colVals_length]; exact h⟩ = entry w i j := by
  simp only [List.get_eq_getElem, colVals, List.getElem_map, entry]
  rw [getD_row_eq_getElem w i h]

theorem entry_mem_colVals (w : mat) (i j : Nat) (h : i < w.length) :
    entry w i j ∈ colVals w j := by
  rw [← colVals_getElem w j i h]
  exact List.get_mem _ _ _

theorem mem_colVals_iff (w : mat) (j : Nat) (x : ℚ) :
    x ∈ colVals w j ↔ ∃ i, ∃ _ : i < w.length, x = entry w i j := by
  constructor
  · intro hx
    rcases List.mem_iff_getElem.1 hx with ⟨i, hi, hxi⟩
    have hi' : i < w.length := by rwa [colVals_length] at hi
    have hce := colVals_getElem w j i hi'
    simp only [List.get_eq_getElem] at hce
    exact ⟨i, hi', by rw [← hxi, hce]⟩
  · rintro ⟨i, hi, rfl⟩
    exact entry_mem_colVals w i j hi

theorem colMin_le_of_mem (w : mat) (j : Nat) (x : ℚ) (hx : x ∈ colVals w j) :
    colMin w j ≤ x := by
  cases w with
  | nil => simp [colVals] at hx
  | cons r rs =>
    rcases List.mem_cons.1 hx with h | h
    · rw [h, colMin]
      exact foldl_min_le_init _ _
    · exact foldl_min_le_mem _ _ _ h

theorem le_colMax_of_mem (w : mat) (j : Nat) (x : ℚ) (hx : x ∈ colVals w j) :
    x ≤ colMax w j := by
  cases w with
  | nil => simp [colVals] at hx
  | cons r rs =>
    rcases List.mem_cons.1 hx with h | h
    · rw [h, colMax]
      exact le_foldl_max_init _ _
    · exact mem_le_foldl_max _ _ _ h

theorem colMin_mem (w : mat) (j : Nat) (hw : w ≠ []) :
    colMin w j ∈ colVals w j := by
  cases w with
  | nil => exact absurd rfl hw
  | cons r rs =>
    rcases foldl_min_eq_init_or_mem (rs.map (fun row => row.getD j 0)) (r.getD j 0)
      with h | h
    · rw [colMin, h]
      exact List.mem_cons_self _ _
    · exact List.mem_cons_of_mem _ h

theorem colMax_mem (w : mat) (j : Nat) (hw : w ≠ []) :
    colMax w j ∈ colVals w j := by
  cases w with
  | nil => exact absurd rfl hw
  | cons r rs =>
    rcases foldl_max_eq_init_or_mem (rs.map (fun row => row.getD j 0)) (r.getD j 0)
      with h | h
    · rw [colMax, h]
      exact List.mem_cons_self _ _
    · exact List.mem_cons_of_mem _ h

theorem colMin_le_colMax (w : mat) (j : Nat) (hw : w ≠ []) :
    colMin w j ≤ colMax w j :=
  colMin_le_of_mem w j _ (colMax_mem w j hw)

theorem colVals_const_of_eq (w : mat) (j : Nat) (heq : colMax w j = colMin w j) :
    ∀ x ∈ colVals w j, x = colMin w j := by
  intro x hx
  have h1 := colMin_le_of_mem w j x hx
  have h2 := le_colMax_of_mem w j x hx
  rw [heq] at h2
  exact le_antisymm h2 h1

theorem normalizeWeights_length (w : mat) :
    (normalizeWeights w).length = w.length := by
  cases w with
  | nil => rfl
  | cons w0 rest => simp [normalizeWeights]

theorem minValues_getD (w0 : vec) (rest : mat) (d j : Nat)
    (hw : uniform (w0 :: rest) d) (hj : j < d) :
    (rest.foldl (fun acc row => List.zipWith min acc row) w0).getD j 0 =
      colMin (w0 :: rest) j := by
  have h0 : w0.length = d := hw w0 (List.mem_cons_self _ _)
  rw [foldl_zipWith_getD min rest w0 j
    (fun r hr => by rw [h0]; exact hw r (List.mem_cons_of_mem _ hr))
    (by rw [h0]; exact hj)]
  rfl

theorem maxValues_getD (w0 : vec) (rest : mat) (d j : Nat)
    (hw : uniform (w0 :: rest) d) (hj : j < d) :
    (rest.foldl (fun acc row => List.zipWith max acc row) w0).getD j 0 =
      colMax (w0 :: rest) j := by
  have h0 : w0.length = d := hw w0 (List.mem_cons_self _ _)
  rw [foldl_zipWith_getD max rest w0 j
    (fun r hr => by rw [h0]; exact hw r (List.mem_cons_of_mem _ hr))
    (by rw [h0]; exact hj)]
  rfl

/-- The entry-level description of `normalizeWeights`: inside the matrix,
entry `(i, j)` becomes `(x - min_j) / (max_j - min_j)` when column `j` is not
constant, and is left unchanged otherwise. -/
theorem normalizeWeights_entry (w : mat) (d : Nat) (hw : uniform w d)
    (i j : Nat) (hi : i < w.length) (hj : j < d) :
    entry (normalizeWeights w) i j =
      if colMax w j ≠ colMin w j then
        (entry w i j - colMin w j) / (colMax w j - colMin w j)
      else entry w i j := by
  cases w with
  | nil => simp at hi
  | cons w0 rest =>
    have h0 : w0.length = d := hw w0 (List.mem_cons_self _ _)
    have hrest : ∀ r ∈ rest, r.length = w0.length := fun r hr => by
      rw [h0]; exact hw r (List.mem_cons_of_mem _ hr)
    have hminlen :
        (rest.foldl (fun acc row => List.zipWith min acc row) w0).length = d := by
      rw [foldl_zipWith_length min rest w0 hrest, h0]
    have hmaxlen :
        (rest.foldl (fun acc row => List.zipWith max acc row) w0).length = d := by
      rw [foldl_zipWith_length max rest w0 hrest, h0]
    have hrowlen : ((w0 :: rest).getD i []).length = d :=
      hw _ (getD_mem _ i hi)
    rw [show normalizeWeights (w0 :: rest) = (w0 :: rest).map
        (fun row => List.zipWith
          (fun x p => if p.2 ≠ p.1 then (x - p.1) / (p.2 - p.1) else x)
          row ((rest.foldl (fun acc row => List.zipWith min acc row) w0).zip
            (rest.foldl (fun acc row => List.zipWith max acc row) w0))) from rfl]
    unfold entry
    rw [getD_map_mat _ _ i hi]
    rw [getD_zipWith _ 0 (0, 0) 0 _ _ j (by rw [hrowlen]; exact hj)
      (by
        show j < (List.zipWith Prod.mk _ _).length
        rw [List.length_zipWith, hminlen, hmaxlen]
        simpa using hj)]
    rw [show (List.zip (rest.foldl (fun acc row => List.zipWith min acc row) w0)
          (rest.foldl (fun acc row => List.zipWith max acc row) w0)).getD j (0, 0) =
        ((rest.foldl (fun acc row => List.zipWith min acc row) w0).getD j 0,
         (rest.foldl (fun acc row => List.zipWith max acc row) w0).getD j 0) from
      getD_zipWith Prod.mk 0 0 (0, 0) _ _ j (by rw [hminlen]; exact hj)
        (by rw [hmaxlen]; exact hj)]
    rw [minValues_getD w0 rest d j hw hj, maxValues_getD w0 rest d j hw hj]

theorem normalizeWeights_uniform (w : mat) (d : Nat) (hw : uniform w d) :
    uniform (normalizeWeights w) d := by
  cases w with
  | nil => intro row hrow; simp [normalizeWeights] at hrow
  | cons w0 rest =>
    have h0 : w0.length = d := hw w0 (List.mem_cons_self _ _)
    have hrest : ∀ r ∈ rest, r.length = w0.length := fun r hr => by
      rw [h0]; exact hw r (List.mem_cons_of_mem _ hr)
    have hminlen :
        (rest.foldl (fun acc row => List.zipWith min acc row) w0).length = d := by
      rw [foldl_zipWith_length min rest w0 hrest, h0]
    have hmaxlen :
        (rest.foldl (fun acc row => List.zipWith max acc row) w0).length = d := by
      rw [foldl_zipWith_length max rest w0 hrest, h0]
    intro row hrow
    rcases List.mem_map.1 hrow with ⟨r, hr, hrw⟩
    rw [← hrw]
    rw [List.length_zipWith]
    show min r.length (List.zipWith Prod.mk _ _).length = d
    rw [List.length_zipWith, hminlen, hmaxlen, hw r hr]
    simp

theorem normalized_nonconst_nonempty (w : mat) (j : Nat)
    (hne : colMax w j ≠ colMin w j) : w ≠ [] := by
  intro h
  subst h
  exact hne rfl

theorem normalized_col_bounds (w : mat) (d : Nat) (hw : uniform w d) (j : Nat)
    (hj : j < d) (hne : colMax w j ≠ colMin w j) :
    ∀ x ∈ colVals (normalizeWeights w) j, 0 ≤ x ∧ x ≤ 1 := by
  intro x hx
  rcases (mem_colVals_iff _ j x).1 hx with ⟨i, hi, rfl⟩
  have hiw : i < w.length := by rwa [normalizeWeights_length] at hi
  have hlt : colMin w j < colMax w j :=
    lt_of_le_of_ne (colMin_le_colMax w j (normalized_nonconst_nonempty w j hne))
      (fun h => hne h.symm)
  have hpos : 0 < colMax w j - colMin w j := sub_pos.2 hlt
  have hmem := entry_mem_colVals w i j hiw
  have h1 : colMin w j ≤ entry w i j := colMin_le_of_mem w j _ hmem
  have h2 : entry w i j ≤ colMax w j := le_colMax_of_mem w j _ hmem
  rw [normalizeWeights_entry w d hw i j hiw hj, if_pos hne]
  constructor
  · exact div_nonneg (sub_nonneg.2 h1) (le_of_lt hpos)
  · rw [div_le_one hpos]
    exact sub_le_sub_right h2 _

theorem normalized_col_attains (w : mat) (d : Nat) (hw : uniform w d) (j : Nat)
    (hj : j < d) (hne : colMax w j ≠ colMin w j) :
    0 ∈ colVals (normalizeWeights w) j ∧ 1 ∈ colVals (normalizeWeights w) j := by
  have hwn : w ≠ [] := normalized_nonconst_nonempty w j hne
  have hdiff : colMax w j - colMin w j ≠ 0 := sub_ne_zero.2 hne
  constructor
  · rcases (mem_colVals_iff w j _).1 (colMin_mem w j hwn) with ⟨i, hi, hmin⟩
    have hin : i < (normalizeWeights w).length := by
      rwa [normalizeWeights_length]
    have : entry (normalizeWeights w) i j = 0 := by
      rw [normalizeWeights_entry w d hw i j hi hj, if_pos hne, ← hmin, sub_self,
        zero_div]
    rw [← this]
    exact entry_mem_colVals _ i j hin
  · rcases (mem_colVals_iff w j _).1 (colMax_mem w j hwn) with ⟨i, hi, hmax⟩
    have hin : i < (normalizeWeights w).length := by
      rwa [normalizeWeights_length]
    have : entry (normalizeWeights w) i j = 1 := by
      rw [normalizeWeights_entry w d hw i j hi hj, if_pos hne, ← hmax,
        div_self hdiff]
    rw [← this]
    exact entry_mem_colVals _ i j hin

theorem normalized_col_const (w : mat) (d : Nat) (hw : uniform w d) (j : Nat)
    (hj : j < d) (heq : colMax w j = colMin w j) :
    colVals (normalizeWeights w) j = colVals w j := by
  apply List.ext_getElem
  · rw [colVals_length, colVals_length, normalizeWeights_length]
  · intro i h1 h2
    have hiw : i < w.length := by rwa [colVals_length] at h2
    have hin : i < (normalizeWeights w).length := by
      rwa [normalizeWeights_length]
    have hceN := colVals_getElem (normalizeWeights w) j i hin
    have hceW := colVals_getElem w j i hiw
    simp only [List.get_eq_getElem] at hceN hceW
    rw [hceN, hceW, normalizeWeights_entry w d hw i j hiw hj,
      if_neg (by simp [heq])]

theorem normalized_entry_mul_nonneg (w : mat) (d : Nat) (hw : uniform w d)
    (i1 i2 j : Nat) (h1 : i1 < w.length) (h2 : i2 < w.length) (hj : j < d) :
    0 ≤ entry (normalizeWeights w) i1 j * entry (normalizeWeights w) i2 j := by
  have h1n : i1 < (normalizeWeights w).length := by rwa [normalizeWeights_length]
  have h2n : i2 < (normalizeWeights w).length := by rwa [normalizeWeights_length]
  by_cases hne : colMax w j ≠ colMin w j
  · have b1 := normalized_col_bounds w d hw j hj hne _
      (entry_mem_colVals _ i1 j h1n)
    have b2 := normalized_col_bounds w d hw j hj hne _
      (entry_mem_colVals _ i2 j h2n)
    exact mul_nonneg b1.1 b2.1
  · push_neg at hne
    have e1 : entry (normalizeWeights w) i1 j = entry w i1 j := by
      rw [normalizeWeights_entry w d hw i1 j h1 hj, if_neg (by simp [hne])]
    have e2 : entry (normalizeWeights w) i2 j = entry w i2 j := by
      rw [normalizeWeights_entry w d hw i2 j h2 hj, if_neg (by simp [hne])]
    have c1 : entry w i1 j = colMin w j :=
      colVals_const_of_eq w j hne _ (entry_mem_colVals w i1 j h1)
    have c2 : entry w i2 j = colMin w j :=
      colVals_const_of_eq w j hne _ (entry_mem_colVals w i2 j h2)
    rw [e1, e2, c1, c2]
    exact mul_self_nonneg _

/-- Any two rows read off the normalized matrix have a nonnegative dot
product: each column contributes either two values in `[0, 1]` or twice the
same untouched constant. -/
theorem normalized_rows_dot_nonneg (w : mat) (d : Nat) (hw : uniform w d)
    (i1 i2 : Nat) :
    0 ≤ dot ((normalizeWeights w).getD i1 []) ((normalizeWeights w).getD i2 []) := by
  by_cases h1 : i1 < (normalizeWeights w).length
  case neg =>
    rw [getD_row_out _ i1 h1, dot_nil_left]
  by_cases h2 : i2 < (normalizeWeights w).length
  case neg =>
    rw [getD_row_out _ i2 h2, dot_nil_right]
  have h1w : i1 < w.length := by rwa [normalizeWeights_length] at h1
  have h2w : i2 < w.length := by rwa [normalizeWeights_length] at h2
  have huni := normalizeWeights_uniform w d hw
  have hv1 : ((normalizeWeights w).getD i1 []).length = d :=
    huni _ (getD_mem _ i1 h1)
  have hv2 : ((normalizeWeights w).getD i2 []).length = d :=
    huni _ (getD_mem _ i2 h2)
  apply List.sum_nonneg
  intro x hx
  rcases List.mem_iff_getElem.1 hx with ⟨k, hk, hxk⟩
  rw [List.length_zipWith, hv1, hv2] at hk
  have hkd : k < d := by simpa using hk
  rw [← hxk, List.getElem_zipWith]
  rw [← getD_val_eq_getElem ((normalizeWeights w).getD i1 []) k
      (by rw [hv1]; exact hkd),
    ← getD_val_eq_getElem ((normalizeWeights w).getD i2 []) k
      (by rw [hv2]; exact hkd)]
  exact normalized_entry_mul_nonneg w d hw i1 i2 k h1w h2w hkd

/-! ### Huffman-tree lemmas -/

theorem countsOk_count_eq_leafSum :
    ∀ t : HuffmanNode, t.countsOk = true → t.count = t.leafSum := by
  intro t
  induction t with
  | leaf i w c => intro _; rfl
  | node i l r c ihl ihr =>
    intro h
    simp only [HuffmanNode.countsOk, Bool.and_eq_true, decide_eq_true_eq] at h
    obtain ⟨⟨hc, hl⟩, hr⟩ := h
    show c = _
    rw [hc, ihl hl, ihr hr]
    rfl

theorem countsOk_subtreeSums :
    ∀ t : HuffmanNode, t.countsOk = true → t.subtreeSums = true := by
  intro t
  induction t with
  | leaf i w c => intro _; rfl
  | node i l r c ihl ihr =>
    intro h
    simp only [HuffmanNode.countsOk, Bool.and_eq_true, decide_eq_true_eq] at h
    obtain ⟨⟨hc, hl⟩, hr⟩ := h
    simp only [HuffmanNode.subtreeSums, Bool.and_eq_true, decide_eq_true_eq]
    refine ⟨⟨?_, ihl hl⟩, ihr hr⟩
    rw [hc, countsOk_count_eq_leafSum l hl, countsOk_count_eq_leafSum r hr]

theorem isLeaf_countsOk (t : HuffmanNode) (h : t.isLeaf = true) :
    t.countsOk = true := by
  cases t with
  | leaf i w c => rfl
  | node i l r c => simp [HuffmanNode.isLeaf] at h

theorem buildHuffman_countsOk :
    ∀ (l : List HuffmanNode) (i : Int), (∀ t ∈ l, t.countsOk = true) →
      ∀ t ∈ buildHuffman l i, t.countsOk = true := by
  intro l i
  induction l, i using buildHuffman.induct with
  | case1 l i h =>
    intro hl t ht
    rw [buildHuffman, h] at ht
    exact hl t ht
  | case2 l i x h =>
    intro hl t ht
    rw [buildHuffman, h] at ht
    exact hl t ht
  | case3 l i a b rest h ih =>
    intro hl t ht
    rw [buildHuffman, h] at ht
    have hsub : ∀ s ∈ a :: b :: rest, s.countsOk = true := by
      intro s hs
      apply hl
      exact (List.mergeSort_perm l _).subset (h ▸ hs)
    apply ih _ t ht
    intro s hs
    rcases List.mem_cons.1 hs with hmk | hrest
    · subst hmk
      simp only [HuffmanNode.mkInternal, HuffmanNode.countsOk,
        Bool.and_eq_true, decide_eq_true_eq]
      exact ⟨⟨by simp, hsub a (List.mem_cons_self _ _)⟩,
        hsub b (List.mem_cons_of_mem _ (List.mem_cons_self _ _))⟩
    · exact hsub s (List.mem_cons_of_mem _ (List.mem_cons_of_mem _ hrest))

/-! ### State-threading lemmas -/

theorem similaritySt_eq (m : MonolingualModel) (w1 w2 : String) (p : Nat) :
    similaritySt m w1 w2 p = (similarity m w1 w2 p, m) := by
  unfold similaritySt similarity wordVecSt
  by_cases h : w1 = w2
  · simp [h]
  · simp only [if_neg h]
    cases h1 : wordVec m w1 p <;> cases h2 : wordVec m w2 p <;> simp [h1, h2]

theorem distanceSt_eq (m : MonolingualModel) (w1 w2 : String) (p : Nat) :
    distanceSt m w1 w2 p = (distance m w1 w2 p, m) := by
  unfold distanceSt distance
  rw [similaritySt_eq]
  cases similarity m w1 w2 p <;> simp

theorem ngramsLoopSt_eq (p : Nat) :
    ∀ (ws1 ws2 : List String) (m : MonolingualModel) (res : ℝ) (n : Nat),
      ngramsLoopSt p m ws1 ws2 res n = (ngramsLoop m p ws1 ws2 res n, m) := by
  intro ws1
  induction ws1 with
  | nil => intro ws2 m res n; rfl
  | cons w1 rest ih =>
    intro ws2 m res n
    cases ws2 with
    | nil => rfl
    | cons w2 ws2 =>
      show (match similaritySt m w1 w2 p with
        | (.ok s, m1) => ngramsLoopSt p m1 rest ws2 (res + s) (n + 1)
        | (.error _, m1) => ngramsLoopSt p m1 rest ws2 res n) = _
      rw [similaritySt_eq]
      cases h : similarity m w1 w2 p with
      | ok s => simp only [ngramsLoop, h, ih]
      | error e => simp only [ngramsLoop, h, ih]

theorem similarityNgramsSt_eq (m : MonolingualModel) (seq1 seq2 : String)
    (p : Nat) :
    similarityNgramsSt m seq1 seq2 p = (similarityNgrams m seq1 seq2 p, m) := by
  simp only [similarityNgramsSt, similarityNgrams, ngramsLoopSt_eq]
  cases ngramsLoop m p (split seq1) (split seq2) 0 0 with
  | none => simp
  | some v =>
    obtain ⟨res, n⟩ := v
    by_cases hn : n = 0 <;> simp [hn]

/-- Unrolling the loop of `similarityNgrams` on equal-length token lists: no
out-of-bounds access happens, the accumulated sum is the sum of the
successful similarity values, and the counter counts them. -/
theorem ngramsLoop_eq_filterMap (m : MonolingualModel) (p : Nat) :
    ∀ (ws1 ws2 : List String) (res : ℝ) (n : Nat), ws1.length = ws2.length →
      ngramsLoop m p ws1 ws2 res n =
        some (res + ((ws1.zip ws2).filterMap
            (fun q => (similarity m q.1 q.2 p).toOption)).sum,
          n + ((ws1.zip ws2).filterMap
            (fun q => (similarity m q.1 q.2 p).toOption)).length) := by
  intro ws1
  induction ws1 with
  | nil =>
    intro ws2 res n _
    simp [ngramsLoop]
  | cons w1 rest ih =>
    intro ws2 res n h
    cases ws2 with
    | nil => simp at h
    | cons w2 ws2 =>
      have h' : rest.length = ws2.length := by simpa using h
      cases hsim : similarity m w1 w2 p with
      | ok s =>
        simp only [ngramsLoop, hsim, List.zip_cons_cons, List.filterMap_cons]
        rw [ih ws2 (res + s) (n + 1) h']
        simp only [hsim, Except.toOption, List.sum_cons, List.length_cons,
          Option.some.injEq, Prod.mk.injEq]
        constructor
        · ring
        · omega
      | error e =>
        simp only [ngramsLoop, hsim, List.zip_cons_cons, List.filterMap_cons]
        rw [ih ws2 res n h']
        simp only [hsim, Except.toOption]

/-- A successful policy-0 `wordVec` call returns the word's row of the input
weight matrix. -/
theorem wordVec_policy0 (M : MonolingualModel) (w : String) (v : vec)
    (h : wordVec M w 0 = .ok v) :
    ∃ i, lookupVocab M.vocabulary w = some i ∧ v = M.input_weights.getD i [] := by
  unfold wordVec at h
  cases hl : lookupVocab M.vocabulary w with
  | none => rw [hl] at h; exact absurd h (by simp)
  | some i =>
    rw [hl] at h
    simp at h
    refine ⟨i, rfl, ?_⟩
    rw [List.getD_eq_getElem?_getD]
    exact h.symm

/-! ### The claims -/

/-- Claim C1 (code-bug evidence). The claim says that sequences with
differing whitespace-token counts make `similarityNgrams` fail with
`LengthMismatch`; the code's guard compares `words2.size()` with itself and
never fires. At the spec's own scenario `("foo bar", "foo")` (2 tokens vs 1)
the call does not produce `LengthMismatch`: it runs the loop off the end of
the second token list (undefined behavior, modelled as `none`). -/
theorem claim_C1 : ∀ (m : MonolingualModel) (p : Nat),
    similarityNgrams m "foo bar" "foo" p = none ∧
    similarityNgrams m "foo bar" "foo" p ≠ some (.error .lengthMismatch) := by
  intro m p
  have h1 : split "foo bar" = ["foo", "bar"] := rfl
  have h2 : split "foo" = ["foo"] := rfl
  have hmain : similarityNgrams m "foo bar" "foo" p = none := by
    simp [similarityNgrams, h1, h2, ngramsLoop, similarity]
  exact ⟨hmain, by rw [hmain]; simp⟩

/-- Claim C2, amended: on equal-length token sequences `similarityNgrams`
returns the arithmetic mean of the per-position similarity values over the
positions where the per-position `similarity` call succeeds; a position is
skipped exactly when that call fails (in particular when the two words
differ and either is out of vocabulary), while byte-equal pairs contribute
1.0 even when out of vocabulary; the call fails with `AllOOV` exactly when
every position was skipped. -/
theorem claim_C2 (m : MonolingualModel) (p : Nat) (seq1 seq2 : String)
    (h : (split seq1).length = (split seq2).length) :
    similarityNgrams m seq1 seq2 p = some (ngramsSpec m seq1 seq2 p) := by
  simp only [similarityNgrams, ngramsSpec, ne_eq, not_true_eq_false, ite_false,
    if_neg]
  rw [ngramsLoop_eq_filterMap m p (split seq1) (split seq2) 0 0 h]
  simp only [zero_add]
  by_cases hn : ((split seq1).zip (split seq2)).filterMap
      (fun q => (similarity m q.1 q.2 p).toOption) = []
  · simp [hn]
  · have hlen : (((split seq1).zip (split seq2)).filterMap
        (fun q => (similarity m q.1 q.2 p).toOption)).length ≠ 0 := by
      simpa [List.length_eq_zero] using hn
    simp [hlen]

/-- Witness for claim C2 at a concrete input: two 2-token sequences. -/
theorem claim_C2_witness :
    (split "a b").length = (split "c d").length ∧
    similarityNgrams (MonolingualModel.mk [] [] [] [] [] defaultConfig)
        "a b" "c d" 0 =
      some (ngramsSpec (MonolingualModel.mk [] [] [] [] [] defaultConfig)
        "a b" "c d" 0) :=
  ⟨rfl, claim_C2 (MonolingualModel.mk [] [] [] [] [] defaultConfig)
    0 "a b" "c d" rfl⟩

/-- Counterexample to claim C2 as stated: with an empty vocabulary, both
occurrences of "x" are out of vocabulary, so the claim demands the position
be skipped and the call fail with `AllOOV`; the code's equality short-circuit
makes the position contribute 1.0 instead and the call returns `1.0`. -/
theorem claim_C2_counterexample :
    lookupVocab (MonolingualModel.mk [] [] [] [] [] defaultConfig).vocabulary
        "x" = none ∧
    similarityNgrams (MonolingualModel.mk [] [] [] [] [] defaultConfig)
        "x" "x" 0 = some (.ok 1) := by
  constructor
  · rfl
  · have h1 : split "x" = ["x"] := rfl
    have : similarityNgrams (MonolingualModel.mk [] [] [] [] [] defaultConfig)
        "x" "x" 0 = some (.ok ((0 + 1) / ((1 : Nat) : ℝ))) := by
      simp [similarityNgrams, h1, ngramsLoop, similarity]
    rw [this]
    norm_num

/-- Claim C3: for every string `w` — in the vocabulary or not —
`similarity(w, w)` returns exactly 1.0: the equality test precedes any
vocabulary lookup, so no `NotInVocabulary` error can arise. -/
theorem claim_C3 : ∀ (m : MonolingualModel) (w : String) (p : Nat),
    similarity m w w p = .ok 1 := by
  intro m w p
  simp [similarity]

/-- Claim C4: `normalizeWeights` min-max normalizes each of the four matrices
independently, per column: the model-level routine applies the free function
to each matrix; in a (uniform-width) matrix, every column whose max differs
from its min has each entry mapped to `(x - min) / (max - min)` and attains
minimum 0 and maximum 1, while a column with `max = min` is left entirely
unchanged. -/
theorem claim_C4 :
    (∀ m : MonolingualModel,
      (normalizeWeightsModel m).input_weights =
          normalizeWeights m.input_weights ∧
      (normalizeWeightsModel m).output_weights =
          normalizeWeights m.output_weights ∧
      (normalizeWeightsModel m).output_weights_hs =
          normalizeWeights m.output_weights_hs ∧
      (normalizeWeightsModel m).sent_weights =
          normalizeWeights m.sent_weights) ∧
    (∀ (w : mat) (d : Nat), uniform w d → ∀ j, j < d →
      (colMax w j ≠ colMin w j →
        (∀ i, i < w.length → entry (normalizeWeights w) i j =
          (entry w i j - colMin w j) / (colMax w j - colMin w j)) ∧
        (∀ x ∈ colVals (normalizeWeights w) j, 0 ≤ x ∧ x ≤ 1) ∧
        0 ∈ colVals (normalizeWeights w) j ∧
        1 ∈ colVals (normalizeWeights w) j) ∧
      (colMax w j = colMin w j →
        colVals (normalizeWeights w) j = colVals w j)) := by
  constructor
  · intro m
    exact ⟨rfl, rfl, rfl, rfl⟩
  · intro w d hw j hj
    constructor
    · intro hne
      refine ⟨?_, normalized_col_bounds w d hw j hj hne,
        (normalized_col_attains w d hw j hj hne).1,
        (normalized_col_attains w d hw j hj hne).2⟩
      intro i hi
      rw [normalizeWeights_entry w d hw i j hi hj, if_pos hne]
    · intro heq
      exact normalized_col_const w d hw j hj heq

/-- Witness for claim C4 at the concrete matrix `[[0], [2]]` (one column,
not constant): the second row's entry is rescaled to
`(2 - 0) / (2 - 0)` and both 0 and 1 occur in the normalized column. -/
theorem claim_C4_witness :
    uniform [[(0 : ℚ)], [2]] 1 ∧
    (entry (normalizeWeights [[(0 : ℚ)], [2]]) 1 0 =
      (entry [[(0 : ℚ)], [2]] 1 0 - colMin [[(0 : ℚ)], [2]] 0) /
        (colMax [[(0 : ℚ)], [2]] 0 - colMin [[(0 : ℚ)], [2]] 0)) ∧
    (0 : ℚ) ∈ colVals (normalizeWeights [[(0 : ℚ)], [2]]) 0 ∧
    (1 : ℚ) ∈ colVals (normalizeWeights [[(0 : ℚ)], [2]]) 0 := by
  refine ⟨by decide, ?_, ?_, ?_⟩
  · exact ((claim_C4.2 [[(0 : ℚ)], [2]] 1 (by decide) 0 (by decide)).1
      (by decide)).1 1 (by decide)
  · exact ((claim_C4.2 [[(0 : ℚ)], [2]] 1 (by decide) 0 (by decide)).1
      (by decide)).2.2.1
  · exact ((claim_C4.2 [[(0 : ℚ)], [2]] 1 (by decide) 0 (by decide)).1
      (by decide)).2.2.2

/-- Claim C5: when the model's weights have been normalized with
`normalizeWeights`, the (default-policy) similarity of any two words, when it
succeeds, lies in `[0, 1]`; without that assumption any successful similarity
value lies in `[-1, 1]`. -/
theorem claim_C5 (m : MonolingualModel) (w1 w2 : String) :
    (∀ d : Nat, uniform m.input_weights d →
      ∀ x : ℝ, similarity (normalizeWeightsModel m) w1 w2 0 = .ok x →
        0 ≤ x ∧ x ≤ 1) ∧
    (∀ (p : Nat) (x : ℝ), similarity m w1 w2 p = .ok x →
      -1 ≤ x ∧ x ≤ 1) := by
  constructor
  · intro d hw x hx
    by_cases heq : w1 = w2
    · rw [similarity, if_pos heq] at hx
      obtain rfl : (1 : ℝ) = x := by simpa using hx
      norm_num
    · rw [similarity, if_neg heq] at hx
      cases hv1 : wordVec (normalizeWeightsModel m) w1 0 with
      | error e => rw [hv1] at hx; simp at hx
      | ok v1 =>
        cases hv2 : wordVec (normalizeWeightsModel m) w2 0 with
        | error e => rw [hv1, hv2] at hx; simp at hx
        | ok v2 =>
          rw [hv1, hv2] at hx
          have hxval : ((dot v1 v2 : ℚ) : ℝ) / (normVec v1 * normVec v2) = x := by
            simpa using hx
          obtain ⟨i1, _, hv1e⟩ := wordVec_policy0 _ w1 v1 hv1
          obtain ⟨i2, _, hv2e⟩ := wordVec_policy0 _ w2 v2 hv2
          have hnw : (normalizeWeightsModel m).input_weights =
              normalizeWeights m.input_weights := rfl
          rw [hnw] at hv1e hv2e
          have hdot : 0 ≤ dot v1 v2 := by
            rw [hv1e, hv2e]
            exact normalized_rows_dot_nonneg m.input_weights d hw i1 i2
          constructor
          · rw [← hxval]
            apply div_nonneg
            · exact_mod_cast hdot
            · exact mul_nonneg (Real.sqrt_nonneg _) (Real.sqrt_nonneg _)
          · rw [← hxval]
            exact (abs_le.1 (abs_cosine_le_one v1 v2)).2
  · intro p x hx
    by_cases heq : w1 = w2
    · rw [similarity, if_pos heq] at hx
      obtain rfl : (1 : ℝ) = x := by simpa using hx
      norm_num
    · rw [similarity, if_neg heq] at hx
      cases hv1 : wordVec m w1 p with
      | error e => rw [hv1] at hx; simp at hx
      | ok v1 =>
        cases hv2 : wordVec m w2 p with
        | error e => rw [hv1, hv2] at hx; simp at hx
        | ok v2 =>
          rw [hv1, hv2] at hx
          have hxval : ((dot v1 v2 : ℚ) : ℝ) / (normVec v1 * normVec v2) = x := by
            simpa using hx
          rw [← hxval]
          exact abs_le.1 (abs_cosine_le_one v1 v2)

/-- Witness for claim C5 at a concrete model and word pair (where both
bounds are exercised; the value is 1 via the equality short-circuit). -/
theorem claim_C5_witness :
    uniform (MonolingualModel.mk [] [] [] [] [] defaultConfig).input_weights 1 ∧
    ((0 : ℝ) ≤ 1 ∧ (1 : ℝ) ≤ 1) ∧ ((-1 : ℝ) ≤ 1 ∧ (1 : ℝ) ≤ 1) :=
  ⟨by decide,
    (claim_C5 (MonolingualModel.mk [] [] [] [] [] defaultConfig) "a" "a").1 1
      (by decide) 1 (by simp [similarity]),
    (claim_C5 (MonolingualModel.mk [] [] [] [] [] defaultConfig) "a" "a").2 0 1
      (by simp [similarity])⟩

/-- Claim C6: `distance(w1, w2)` equals `1 - similarity(w1, w2)` whenever
`similarity` succeeds, and `distance` fails with exactly the error that
`similarity` fails with. -/
theorem claim_C6 : ∀ (m : MonolingualModel) (w1 w2 : String) (p : Nat),
    (∀ x : ℝ, similarity m w1 w2 p = .ok x →
      distance m w1 w2 p = .ok (1 - x)) ∧
    (∀ e : SimErr, distance m w1 w2 p = .error e ↔
      similarity m w1 w2 p = .error e) := by
  intro m w1 w2 p
  cases h : similarity m w1 w2 p with
  | ok a =>
    constructor
    · intro x hx
      obtain rfl : a = x := by simpa using hx
      simp [distance, h]
    · intro e
      simp [distance, h]
  | error e0 =>
    constructor
    · intro x hx
      simp at hx
    · intro e
      simp [distance, h]

/-- Witness for claim C6 at a concrete model and words: the equality
short-circuit gives similarity 1, hence distance `1 - 1`. -/
theorem claim_C6_witness :
    distance (MonolingualModel.mk [] [] [] [] [] defaultConfig) "a" "a" 0 =
      .ok (1 - 1) :=
  (claim_C6 (MonolingualModel.mk [] [] [] [] [] defaultConfig) "a" "a" 0).1 1
    (by simp [similarity])

/-- Claim C7: cosine similarity is symmetric — `similarity(a, b)` and
`similarity(b, a)` return the same value (exactly, in the idealised
arithmetic), and one call fails if and only if the other does. -/
theorem claim_C7 : ∀ (m : MonolingualModel) (a b : String) (p : Nat),
    (∀ x : ℝ, similarity m a b p = .ok x ↔ similarity m b a p = .ok x) ∧
    ((∃ e, similarity m a b p = .error e) ↔
      (∃ e, similarity m b a p = .error e)) := by
  intro m a b p
  by_cases hab : a = b
  · subst hab
    exact ⟨fun x => Iff.rfl, Iff.rfl⟩
  · have hba : ¬ b = a := fun h => hab h.symm
    simp only [similarity, if_neg hab, if_neg hba]
    cases h1 : wordVec m a p with
    | error e1 =>
      cases h2 : wordVec m b p with
      | error e2 => simp
      | ok v2 => simp
    | ok v1 =>
      cases h2 : wordVec m b p with
      | error e2 => simp
      | ok v2 =>
        constructor
        · intro x
          show Except.ok (((dot v1 v2 : ℚ) : ℝ) / (normVec v1 * normVec v2)) =
                Except.ok x ↔
              Except.ok (((dot v2 v1 : ℚ) : ℝ) / (normVec v2 * normVec v1)) =
                Except.ok x
          rw [dot_comm v2 v1, mul_comm (normVec v2) (normVec v1)]
        · simp

/-- Claim C8: every tree produced by the Huffman builder (which constructs
each internal node with the source's constructor, whose stored count is the
sum of its children's counts) satisfies: the count stored at each internal
node equals the sum of the counts of the leaves of its subtree. -/
theorem claim_C8 (leaves : List HuffmanNode) (i : Int)
    (h : ∀ t ∈ leaves, t.isLeaf = true) :
    ∀ t ∈ buildHuffman leaves i, t.subtreeSums = true := by
  intro t ht
  exact countsOk_subtreeSums t
    (buildHuffman_countsOk leaves i (fun s hs => isLeaf_countsOk s (h s hs)) t ht)

/-- Witness for claim C8: building from three concrete leaves with counts
3, 1, 2 yields trees all of whose internal counts are subtree leaf sums. -/
theorem claim_C8_witness :
    ([HuffmanNode.leaf 0 "a" 3, HuffmanNode.leaf 1 "b" 1,
        HuffmanNode.leaf 2 "c" 2].all HuffmanNode.isLeaf = true) ∧
    ((buildHuffman [HuffmanNode.leaf 0 "a" 3, HuffmanNode.leaf 1 "b" 1,
        HuffmanNode.leaf 2 "c" 2] 0).all HuffmanNode.subtreeSums = true) := by
  constructor
  · decide
  · apply List.all_eq_true.mpr
    intro t ht
    exact claim_C8 [HuffmanNode.leaf 0 "a" 3, HuffmanNode.leaf 1 "b" 1,
      HuffmanNode.leaf 2 "c" 2] 0 (by decide) t ht

/-- Claim C9: the length-mismatch guard of `similarityNgrams` compares the
second token list's length with itself, so no input ever produces the
`LengthMismatch` error; and when the first sequence has more tokens than the
second (here `"a b"` vs `"a"`), the loop's access to the second sequence runs
out of bounds (undefined behavior, modelled as `none`). -/
theorem claim_C9 :
    (∀ (m : MonolingualModel) (s1 s2 : String) (p : Nat),
      similarityNgrams m s1 s2 p ≠ some (.error .lengthMismatch)) ∧
    ((split "a b").length > (split "a").length ∧
      ∀ (m : MonolingualModel) (p : Nat),
        similarityNgrams m "a b" "a" p = none) := by
  constructor
  · intro m s1 s2 p
    unfold similarityNgrams
    rw [if_neg (by simp)]
    cases h : ngramsLoop m p (split s1) (split s2) 0 0 with
    | none => simp
    | some v =>
      obtain ⟨res, n⟩ := v
      by_cases hn : n = 0 <;> simp [hn]
  · constructor
    · have h1 : split "a b" = ["a", "b"] := rfl
      have h2 : split "a" = ["a"] := rfl
      rw [h1, h2]
      simp
    · intro m p
      have h1 : split "a b" = ["a", "b"] := rfl
      have h2 : split "a" = ["a"] := rfl
      simp [similarityNgrams, h1, h2, ngramsLoop, similarity]

/-- Claim C10: the three inference operations are pure reads: run in
state-passing style (as `const` C++ methods over the receiver object), each
returns the same result as its functional version and leaves the entire
model — all four weight matrices, the vocabulary and the configuration —
unchanged, on every input, including the failing executions. -/
theorem claim_C10 : ∀ (m : MonolingualModel) (w1 w2 s1 s2 : String) (p : Nat),
    similaritySt m w1 w2 p = (similarity m w1 w2 p, m) ∧
    distanceSt m w1 w2 p = (distance m w1 w2 p, m) ∧
    similarityNgramsSt m s1 s2 p = (similarityNgrams m s1 s2 p, m) :=
  fun m w1 w2 s1 s2 p =>
    ⟨similaritySt_eq m w1 w2 p, distanceSt_eq m w1 w2 p,
      similarityNgramsSt_eq m s1 s2 p⟩

/-- Witness for claim C1 at the concrete model with an empty vocabulary. -/
theorem claim_C1_witness :
    similarityNgrams (MonolingualModel.mk [] [] [] [] [] defaultConfig)
        "foo bar" "foo" 0 = none ∧
    similarityNgrams (MonolingualModel.mk [] [] [] [] [] defaultConfig)
        "foo bar" "foo" 0 ≠ some (.error .lengthMismatch) :=
  claim_C1 (MonolingualModel.mk [] [] [] [] [] defaultConfig) 0

/-- Witness for claim C3 at a concrete model and word. -/
theorem claim_C3_witness :
    similarity (MonolingualModel.mk [] [] [] [] [] defaultConfig) "z" "z" 0 =
      .ok 1 :=
  claim_C3 (MonolingualModel.mk [] [] [] [] [] defaultConfig) "z" 0

/-- Witness for claim C7 at a concrete model, word pair and value. -/
theorem claim_C7_witness :
    similarity (MonolingualModel.mk [] [] [] [] [] defaultConfig) "a" "b" 0 =
        .ok 1 ↔
      similarity (MonolingualModel.mk [] [] [] [] [] defaultConfig) "b" "a" 0 =
        .ok 1 :=
  (claim_C7 (MonolingualModel.mk [] [] [] [] [] defaultConfig) "a" "b" 0).1 1

/-- Witness for claim C9 at a concrete model and policy. -/
theorem claim_C9_witness :
    similarityNgrams (MonolingualModel.mk [] [] [] [] [] defaultConfig)
        "a b" "a" 0 = none :=
  claim_C9.2.2 (MonolingualModel.mk [] [] [] [] [] defaultConfig) 0

/-- Witness for claim C10 at a concrete model and inputs. -/
theorem claim_C10_witness :
    similaritySt (MonolingualModel.mk [] [] [] [] [] defaultConfig)
        "a" "b" 0 =
      (similarity (MonolingualModel.mk [] [] [] [] [] defaultConfig)
        "a" "b" 0,
       MonolingualModel.mk [] [] [] [] [] defaultConfig) ∧
    distanceSt (MonolingualModel.mk [] [] [] [] [] defaultConfig)
        "a" "b" 0 =
      (distance (MonolingualModel.mk [] [] [] [] [] defaultConfig)
        "a" "b" 0,
       MonolingualModel.mk [] [] [] [] [] defaultConfig) ∧
    similarityNgramsSt (MonolingualModel.mk [] [] [] [] [] defaultConfig)
        "c d" "e f" 0 =
      (similarityNgrams (MonolingualModel.mk [] [] [] [] [] defaultConfig)
        "c d" "e f" 0,
       MonolingualModel.mk [] [] [] [] [] defaultConfig) :=
  claim_C10 (MonolingualModel.mk [] [] [] [] [] defaultConfig)
    "a" "b" "c d" "e f" 0
